import Mathlib

/-!
Verification of the yai storage subsystem: the JSONL-backed conversation
metadata index (package storage) and the sharded payload file cache
(package cache).  Go maps are embedded as association lists over String
keys, Go time.Time as a Nat timestamp, and file-system state as an
association list from path strings to file contents.
-/

set_option maxHeartbeats 1000000

namespace Yai

/-! ### Association-list embedding of Go maps -/

/-- Go map assignment m[k] = v: replace the binding for k, or append it. -/
def putKV {β : Type} : List (String × β) → String → β → List (String × β)
  | [], k, v => [(k, v)]
  | (k1, v1) :: rest, k, v =>
      if k1 = k then (k, v) :: rest else (k1, v1) :: putKV rest k v

/-- Go map deletion delete(m, k). -/
def delKV {β : Type} : List (String × β) → String → List (String × β)
  | [], _ => []
  | (k1, v1) :: rest, k =>
      if k1 = k then delKV rest k else (k1, v1) :: delKV rest k

/-- Go map read m[k] (the ok-form returns whether the result is some). -/
def getKV {β : Type} : List (String × β) → String → Option β
  | [], _ => none
  | (k1, v1) :: rest, k => if k1 = k then some v1 else getKV rest k

theorem getKV_putKV {β : Type} (m : List (String × β)) (k : String) (v : β) (k1 : String) :
    getKV (putKV m k v) k1 = if k1 = k then some v else getKV m k1 := by
  induction m with
  | nil =>
    by_cases h : k1 = k
    · simp [putKV, getKV, h]
    · simp [putKV, getKV, h, Ne.symm h]
  | cons kv rest ih =>
    obtain ⟨k2, v2⟩ := kv
    by_cases h : k2 = k
    · subst h
      by_cases h1 : k1 = k2
      · simp [putKV, getKV, h1]
      · simp [putKV, getKV, h1, Ne.symm h1]
    · by_cases h1 : k2 = k1
      · have h2 : ¬ k1 = k := fun hc => h (h1.trans hc)
        simp [putKV, getKV, h, h1, h2]
      · simp [putKV, getKV, h, h1, ih]

theorem getKV_delKV {β : Type} (m : List (String × β)) (k k1 : String) :
    getKV (delKV m k) k1 = if k1 = k then none else getKV m k1 := by
  induction m with
  | nil => simp [delKV, getKV]
  | cons kv rest ih =>
    obtain ⟨k2, v2⟩ := kv
    by_cases h : k2 = k
    · subst h
      have hd : delKV ((k2, v2) :: rest) k2 = delKV rest k2 := by simp [delKV]
      rw [hd, ih]
      by_cases h1 : k1 = k2
      · simp [getKV, h1]
      · simp [getKV, h1, Ne.symm h1]
    · by_cases h1 : k2 = k1
      · have h2 : ¬ k1 = k := fun hc => h (h1.trans hc)
        simp [delKV, getKV, h, h1, h2]
      · simp [delKV, getKV, h, h1, ih]

theorem mem_putKV {β : Type} (m : List (String × β)) (k : String) (v : β) (kv : String × β) :
    kv ∈ putKV m k v → kv ∈ m ∨ kv = (k, v) := by
  induction m with
  | nil => simp [putKV]
  | cons kv1 rest ih =>
    obtain ⟨k2, v2⟩ := kv1
    by_cases h : k2 = k
    · subst h
      simp only [putKV, if_pos rfl]
      intro hm
      rcases List.mem_cons.mp hm with h1 | h1
      · right; exact h1
      · left; exact List.mem_cons_of_mem _ h1
    · simp only [putKV, if_neg h]
      intro hm
      rcases List.mem_cons.mp hm with h1 | h1
      · left; exact h1 ▸ List.mem_cons_self _ _
      · rcases ih h1 with h2 | h2
        · left; exact List.mem_cons_of_mem _ h2
        · right; exact h2

theorem mem_delKV {β : Type} (m : List (String × β)) (k : String) (kv : String × β) :
    kv ∈ delKV m k → kv ∈ m := by
  induction m with
  | nil => simp [delKV]
  | cons kv1 rest ih =>
    obtain ⟨k2, v2⟩ := kv1
    by_cases h : k2 = k
    · simp only [delKV, if_pos h]
      intro hm
      exact List.mem_cons_of_mem _ (ih hm)
    · simp only [delKV, if_neg h]
      intro hm
      rcases List.mem_cons.mp hm with h1 | h1
      · exact h1 ▸ List.mem_cons_self _ _
      · exact List.mem_cons_of_mem _ (ih h1)

theorem keys_putKV {β : Type} (m : List (String × β)) (k : String) (v : β) :
    (putKV m k v).map Prod.fst =
      if k ∈ m.map Prod.fst then m.map Prod.fst else m.map Prod.fst ++ [k] := by
  induction m with
  | nil => simp [putKV]
  | cons kv rest ih =>
    obtain ⟨k2, v2⟩ := kv
    by_cases h : k2 = k
    · subst h; simp [putKV]
    · simp only [putKV, if_neg h, List.map_cons, ih, List.mem_cons]
      by_cases h1 : k ∈ rest.map Prod.fst
      · simp [h1, Ne.symm h]
      · simp [h1, Ne.symm h]

theorem nodup_keys_putKV {β : Type} (m : List (String × β)) (k : String) (v : β)
    (h : (m.map Prod.fst).Nodup) : ((putKV m k v).map Prod.fst).Nodup := by
  rw [keys_putKV]
  by_cases h1 : k ∈ m.map Prod.fst
  · simpa [h1]
  · simpa [h1] using List.Nodup.append h (List.nodup_singleton k) (by simpa using h1)

theorem keys_delKV {β : Type} (m : List (String × β)) (k : String) :
    (delKV m k).map Prod.fst = (m.map Prod.fst).filter (fun k1 => k1 ≠ k) := by
  induction m with
  | nil => simp [delKV]
  | cons kv rest ih =>
    obtain ⟨k2, v2⟩ := kv
    by_cases h : k2 = k
    · subst h; simp [delKV, ih]
    · simp [delKV, h, ih]

theorem nodup_keys_delKV {β : Type} (m : List (String × β)) (k : String)
    (h : (m.map Prod.fst).Nodup) : ((delKV m k).map Prod.fst).Nodup := by
  rw [keys_delKV]; exact h.filter _

theorem getKV_eq_some_of_mem {β : Type} {m : List (String × β)} {k : String} {v : β}
    (hn : (m.map Prod.fst).Nodup) (h : (k, v) ∈ m) : getKV m k = some v := by
  induction m with
  | nil => simp at h
  | cons kv rest ih =>
    obtain ⟨k2, v2⟩ := kv
    simp only [List.map_cons, List.nodup_cons] at hn
    rcases List.mem_cons.mp h with h1 | h1
    · rw [Prod.mk.injEq] at h1
      simp [getKV, h1.1, h1.2]
    · have hk : ¬ k2 = k := by
        intro he
        subst he
        exact hn.1 (List.mem_map_of_mem Prod.fst h1)
      simp [getKV, hk, ih hn.2 h1]

theorem mem_of_getKV_eq_some {β : Type} {m : List (String × β)} {k : String} {v : β}
    (h : getKV m k = some v) : (k, v) ∈ m := by
  induction m with
  | nil => simp [getKV] at h
  | cons kv rest ih =>
    obtain ⟨k2, v2⟩ := kv
    by_cases h1 : k2 = k
    · subst h1
      simp [getKV] at h
      subst h
      exact List.mem_cons_self _ _
    · simp only [getKV, if_neg h1] at h
      exact List.mem_cons_of_mem _ (ih h)

theorem getKV_eq_none_iff {β : Type} (m : List (String × β)) (k : String) :
    getKV m k = none ↔ k ∉ m.map Prod.fst := by
  induction m with
  | nil => simp [getKV]
  | cons kv rest ih =>
    obtain ⟨k2, v2⟩ := kv
    by_cases h1 : k2 = k
    · subst h1; simp [getKV]
    · simp [getKV, h1, ih, Ne.symm h1]

/-- Lookups agree on permuted association lists with duplicate-free keys. -/
theorem getKV_eq_of_perm {β : Type} {m1 m2 : List (String × β)}
    (hp : m1.Perm m2) (hn : (m1.map Prod.fst).Nodup) (k : String) :
    getKV m1 k = getKV m2 k := by
  have hn2 : (m2.map Prod.fst).Nodup := ((hp.map Prod.fst).nodup_iff).mp hn
  cases h : getKV m1 k with
  | none =>
    have h1 := (getKV_eq_none_iff m1 k).mp h
    have h2 : k ∉ m2.map Prod.fst := fun hc => h1 ((hp.map Prod.fst).mem_iff.mpr hc)
    exact ((getKV_eq_none_iff m2 k).mpr h2).symm
  | some v =>
    have h1 := mem_of_getKV_eq_some h
    exact (getKV_eq_some_of_mem hn2 (hp.mem_iff.mp h1)).symm

/-! ### The storage package: conversation metadata index -/

/-- Display length for IDs in CLI output (storage SHA1Short). -/
def SHA1Short : Nat := 7

/-- Minimum query length for ID-prefix matching (storage SHA1MinLen). -/
def SHA1MinLen : Nat := 4

/-- Compaction threshold on the event count (storage compactMinOps). -/
def compactMinOps : Nat := 256

/-- Compaction density factor (storage compactScaleFactor). -/
def compactScaleFactor : Nat := 4

/-- Conversation record of the storage package.  Go time.Time is embedded
as a Nat timestamp; the pointer-typed API and Model fields as Options. -/
structure Conversation where
  ID : String
  Title : String
  UpdatedAt : Nat
  API : Option String
  Model : Option String
deriving DecidableEq, Repr

/-- Event of the JSONL index log (storage convoEvent).  The ID field has
the Go zero value "" when absent; the Conversation pointer is an Option. -/
structure ConvoEvent where
  Op : String
  ID : String := ""
  Convo : Option Conversation := none
deriving DecidableEq, Repr

/-- In-memory map id to record (field conversations of storage DB). -/
abbrev ConvoMap := List (String × Conversation)

/-- Errors surfaced by DB.applyEvent during load. -/
inductive LoadErr where
  | missingConversation
  | emptyUpsertID
  | emptyDeleteID
  | invalidOp (op : String)
deriving DecidableEq, Repr

/-- Go strings.HasPrefix(s, p): p is a prefix of s.  Embedded on the
character lists underlying the strings; on valid UTF-8 the byte-level
comparison of the Go original coincides with the character-level one. -/
def goHasPrefix (s p : String) : Bool :=
  p.data.isPrefixOf s.data

/-- Go len(s): the UTF-8 byte length of the string. -/
def goLen (s : String) : Nat :=
  s.data.foldl (fun n c => n + c.utf8Size) 0

/-- Go strings.TrimSpace: strips leading and trailing whitespace. -/
def goTrimSpace (s : String) : String :=
  ⟨((s.data.dropWhile Char.isWhitespace).reverse.dropWhile Char.isWhitespace).reverse⟩

/-- Go byte-slice s[:n] of a string.  Embedded as taking the first n
characters, which coincides with the byte slice on the ASCII identifiers
the scheme produces. -/
def goSlice (s : String) (n : Nat) : String :=
  ⟨s.data.take n⟩

/-- Lexicographic order on character lists (Go byte-wise string order;
the two coincide on ASCII strings). -/
def charListLess : List Char → List Char → Bool
  | [], [] => false
  | [], _ :: _ => true
  | _ :: _, [] => false
  | a :: as, b :: bs =>
      if a < b then true else if b < a then false else charListLess as bs

/-- Go string comparison a < b. -/
def goStrLess (a b : String) : Bool :=
  charListLess a.data b.data

/-- Go string comparison a <= b, used for sort.Strings. -/
def goStrLE (a b : String) : Bool :=
  goStrLess a b || decide (a.data = b.data)

/-- DB.applyEvent: applies one parsed log event to the in-memory map. -/
def applyEvent (m : ConvoMap) (evt : ConvoEvent) : Except LoadErr ConvoMap :=
  if evt.Op = "upsert" then
    match evt.Convo with
    | none => .error .missingConversation
    | some convo =>
        if goTrimSpace convo.ID = "" then .error .emptyUpsertID
        else .ok (putKV m convo.ID convo)
  else if evt.Op = "delete" then
    if goTrimSpace evt.ID = "" then .error .emptyDeleteID
    else .ok (delKV m evt.ID)
  else .error (.invalidOp evt.Op)

/-- Scanner loop of DB.load: applies the events of the log in file order,
stopping at the first invalid event. -/
def loadEvents : ConvoMap → List ConvoEvent → Except LoadErr ConvoMap
  | m, [] => .ok m
  | m, evt :: rest =>
      match applyEvent m evt with
      | .error e => .error e
      | .ok m1 => loadEvents m1 rest

/-- DB.load: replays the whole event log from the empty map. -/
def load (log : List ConvoEvent) : Except LoadErr ConvoMap :=
  loadEvents [] log

/-- State of a storage DB handle: the in-memory map, the persisted event
log (one event per line of index.jsonl) and the event counter ops. -/
structure DB where
  conversations : ConvoMap
  log : List ConvoEvent
  ops : Nat
deriving DecidableEq, Repr

/-- Fresh store over an empty directory. -/
def DB.empty : DB := ⟨[], [], 0⟩

/-- Open on a directory: replays the log into a fresh in-memory map;
the event counter ends up at the number of events replayed. -/
def openDB (log : List ConvoEvent) : Except LoadErr DB :=
  match load log with
  | .ok m => .ok ⟨m, log, log.length⟩
  | .error e => .error e

/-- DB.appendEventLocked on the success path: appends the serialized event
to the log file and bumps ops. -/
def appendEvent (db : DB) (evt : ConvoEvent) : DB :=
  { db with log := db.log ++ [evt], ops := db.ops + 1 }

/-- Live records of the store (range of the conversations map). -/
def DB.values (db : DB) : List Conversation :=
  db.conversations.map Prod.snd

/-- Comparator of DB.compactLocked: updated_at ascending, ties broken by
id ascending. -/
def convoLess (a b : Conversation) : Bool :=
  if a.UpdatedAt = b.UpdatedAt then goStrLess a.ID b.ID
  else decide (a.UpdatedAt < b.UpdatedAt)

/-- Snapshot of the live records in compaction rewrite order (the items
slice of DB.compactLocked). -/
def compactItems (db : DB) : List Conversation :=
  List.insertionSort (fun a b => convoLess a b = true) db.values

/-- DB.compactLocked: rewrites the log to one upsert event per live
record, in compaction order, and resets ops to the live record count.
The in-memory map is not touched. -/
def compactLocked (db : DB) : DB :=
  { db with
    log := (compactItems db).map (fun c => { Op := "upsert", Convo := some c }),
    ops := db.conversations.length }

/-- DB.compactIfNeededLocked: compacts once ops reaches compactMinOps and
the log is no longer dense relative to the live record count. -/
def compactIfNeededLocked (db : DB) : DB :=
  if db.ops < compactMinOps then db
  else if 0 < db.conversations.length ∧
      db.ops < db.conversations.length * compactScaleFactor then db
  else compactLocked db

/-- Record DB.Save builds before mutating the map; UpdatedAt is now. -/
def mkConvo (id title api model : String) (now : Nat) : Conversation :=
  { ID := id, Title := title, UpdatedAt := now, API := some api, Model := some model }

/-- Errors returned by DB.Save. -/
inductive SaveErr where
  | emptyID
  | emptyTitle
  | appendFailed
deriving DecidableEq, Repr

/-- DB.Save: validates id and title, mutates the in-memory map, then
appends the upsert event.  The appendOk flag models whether the durable
append I/O succeeds; on failure Save returns the error with the map
already mutated and the log unchanged, exactly as the source does. -/
def DB.Save (db : DB) (id title api model : String) (now : Nat)
    (appendOk : Bool) : DB × Option SaveErr :=
  if goTrimSpace id = "" then (db, some .emptyID)
  else if goTrimSpace title = "" then (db, some .emptyTitle)
  else
    let convo := mkConvo id title api model now
    let db1 := { db with conversations := putKV db.conversations id convo }
    if appendOk then
      (compactIfNeededLocked (appendEvent db1 { Op := "upsert", Convo := some convo }), none)
    else (db1, some .appendFailed)

/-- Errors returned by DB.Delete. -/
inductive DeleteErr where
  | emptyID
  | appendFailed
deriving DecidableEq, Repr

/-- DB.Delete: no-op success when the id is absent; otherwise removes the
record from the map and appends the delete event. -/
def DB.Delete (db : DB) (id : String) (appendOk : Bool) : DB × Option DeleteErr :=
  if goTrimSpace id = "" then (db, some .emptyID)
  else
    match getKV db.conversations id with
    | none => (db, none)
    | some _ =>
      let db1 := { db with conversations := delKV db.conversations id }
      if appendOk then
        (compactIfNeededLocked (appendEvent db1 { Op := "delete", ID := id }), none)
      else (db1, some .appendFailed)

/-- Errors returned by DB.Find. -/
inductive FindErr where
  | noMatches
  | manyMatches
deriving DecidableEq, Repr

/-- DB.Find: resolves a record by id prefix or exact title.  Queries
shorter than SHA1MinLen bytes match by exact title only. -/
def DB.Find (db : DB) (q : String) : Except FindErr Conversation :=
  let matched :=
    if goLen q < SHA1MinLen then
      db.values.filter (fun c => decide (c.Title = q))
    else
      db.values.filter (fun c => goHasPrefix c.ID q || decide (c.Title = q))
  if 1 < matched.length then .error .manyMatches
  else
    match matched with
    | [c] => .ok c
    | _ => .error .noMatches

/-- Comparator of sortConversationsByUpdatedAtDesc: updated_at descending,
ties broken by id ascending. -/
def convoMoreRecent (a b : Conversation) : Bool :=
  if a.UpdatedAt = b.UpdatedAt then goStrLess a.ID b.ID
  else decide (b.UpdatedAt < a.UpdatedAt)

/-- Helper sortConversationsByUpdatedAtDesc of the storage package. -/
def sortConversationsByUpdatedAtDesc (convos : List Conversation) : List Conversation :=
  List.insertionSort (fun a b => convoMoreRecent a b = true) convos

/-- DB.List of the source: all records, most recently updated first.
Named ListAll here because the method name List would shadow the List
type inside the DB namespace. -/
def DB.ListAll (db : DB) : List Conversation :=
  sortConversationsByUpdatedAtDesc db.values

/-- Completion entries one record contributes for one query (loop body of
DB.Completions). -/
def completionEntriesFor (q : String) (c : Conversation) : List String :=
  (if goHasPrefix c.ID q then
      [(if goLen q < SHA1Short ∧ SHA1Short < goLen c.ID
          then goSlice c.ID SHA1Short else c.ID) ++ "\t" ++ c.Title]
    else []) ++
  (if goHasPrefix c.Title q then
      [c.Title ++ "\t" ++
        (if SHA1Short < goLen c.ID then goSlice c.ID SHA1Short else c.ID)]
    else [])

/-- DB.Completions: the deduplicated, lexicographically sorted completion
candidates over all records. -/
def DB.Completions (db : DB) (q : String) : List String :=
  List.insertionSort (fun a b : String => goStrLE a b = true)
    ((db.values.flatMap (completionEntriesFor q)).dedup)

/-! ### JSON marshalling of log events (Go encoding/json) -/

/-- Atomic JSON value in a marshalled conversation object.  The time
constructor stands for the RFC3339 string encoding/json produces for a
time.Time value. -/
inductive Jatom where
  | str (s : String)
  | time (t : Nat)
  | nullv
deriving DecidableEq, Repr

/-- A flat JSON object: field names in emission order with atomic values. -/
abbrev Jobj := List (String × Jatom)

/-- Marshalled form of a Go *string: null when nil. -/
def marshalOptStr : Option String → Jatom
  | none => .nullv
  | some s => .str s

/-- JSON object produced by encoding/json for a Conversation value.  The
struct tags of the source are db: tags, which encoding/json ignores, so
the emitted keys are the Go field names in declaration order. -/
def marshalConversation (c : Conversation) : Jobj :=
  [("ID", .str c.ID), ("Title", .str c.Title), ("UpdatedAt", .time c.UpdatedAt),
   ("API", marshalOptStr c.API), ("Model", marshalOptStr c.Model)]

/-- Value of a top-level field of a marshalled convoEvent. -/
inductive JeventVal where
  | str (s : String)
  | obj (o : Jobj)
deriving DecidableEq, Repr

/-- JSON object produced by encoding/json for a convoEvent: the op field
always, the id field unless empty (omitempty), the conversation field
unless the pointer is nil (omitempty). -/
def marshalConvoEvent (e : ConvoEvent) : List (String × JeventVal) :=
  [("op", .str e.Op)]
    ++ (if e.ID = "" then [] else [("id", .str e.ID)])
    ++ (match e.Convo with
        | none => []
        | some c => [("conversation", .obj (marshalConversation c))])

/-! ### Reachable store states -/

/-- Store states reachable from an empty directory by successful Save,
Delete and forced-compaction steps. -/
inductive Reach : DB → Prop where
  | init : Reach DB.empty
  | save (db db1 : DB) (id title api model : String) (now : Nat) :
      Reach db → DB.Save db id title api model now true = (db1, none) → Reach db1
  | del (db db1 : DB) (id : String) :
      Reach db → DB.Delete db id true = (db1, none) → Reach db1
  | compact (db : DB) : Reach db → Reach (compactLocked db)

/-- Store states reachable when additionally Open may replay an arbitrary
event log that load accepts. -/
inductive ReachOpen : DB → Prop where
  | openLog (log : List ConvoEvent) (m : ConvoMap) :
      load log = .ok m → ReachOpen ⟨m, log, log.length⟩
  | save (db db1 : DB) (id title api model : String) (now : Nat) :
      ReachOpen db → DB.Save db id title api model now true = (db1, none) → ReachOpen db1
  | del (db db1 : DB) (id : String) :
      ReachOpen db → DB.Delete db id true = (db1, none) → ReachOpen db1
  | compact (db : DB) : ReachOpen db → ReachOpen (compactLocked db)

/-! ### The cache package: sharded payload file store -/

/-- Shard directory name length (cache shardPrefixLen). -/
def shardPrefixLen : Nat := 2

/-- Payload file extension (cache cacheExt). -/
def cacheExt : String := ".json"

/-- File-system state: an association list from path to file content. -/
abbrev FS := List (String × String)

/-- Outcome of the os-level open and remove calls the cache uses. -/
inductive OsErr where
  | notExist
deriving DecidableEq, Repr

/-- os.Open on the modelled file system. -/
def osOpen (fs : FS) (p : String) : Except OsErr String :=
  match getKV fs p with
  | some content => .ok content
  | none => .error .notExist

/-- os.Remove on the modelled file system. -/
def osRemove (fs : FS) (p : String) : Except OsErr FS :=
  match getKV fs p with
  | some _ => .ok (delKV fs p)
  | none => .error .notExist

/-- A cache handle (cache Cache): base directory and category. -/
structure Cache where
  baseDir : String
  cType : String
deriving DecidableEq, Repr

/-- Cache.dir: the category directory. -/
def Cache.dir (c : Cache) : String :=
  c.baseDir ++ "/" ++ c.cType

/-- Cache.isSharded: only the conversations category is sharded. -/
def Cache.isSharded (c : Cache) : Bool :=
  decide (c.cType = "conversations")

/-- Cache.legacyFilePath: flat layout path. -/
def Cache.legacyFilePath (c : Cache) (id : String) : String :=
  c.dir ++ "/" ++ id ++ cacheExt

/-- Cache.filePath: sharded path unless the category is flat or the id is
shorter than the shard prefix.  Go slices the first two bytes of the id;
taking two characters coincides on the ASCII ids the scheme produces. -/
def Cache.filePath (c : Cache) (id : String) : String :=
  if !c.isSharded || decide (goLen id < shardPrefixLen) then
    c.legacyFilePath id
  else
    c.dir ++ "/" ++ goSlice id shardPrefixLen ++ "/" ++ id ++ cacheExt

/-- Errors surfaced by the cache operations. -/
inductive CacheErr where
  | invalidID
  | notExist
deriving DecidableEq, Repr

/-- Cache.Read: opens the current-generation path, falling back to the
legacy path when the category is sharded and the file does not exist.
The readFn callback is abstracted away; the file content is returned. -/
def Cache.Read (c : Cache) (fs : FS) (id : String) : Except CacheErr String :=
  if id = "" then .error .invalidID
  else
    match osOpen fs (c.filePath id) with
    | .ok content => .ok content
    | .error .notExist =>
        if c.isSharded then
          match osOpen fs (c.legacyFilePath id) with
          | .ok content => .ok content
          | .error .notExist => .error .notExist
        else .error .notExist

/-- Cache.Write: atomically installs the content at the current-generation
path (the temp-file plus rename dance collapses to one atomic update). -/
def Cache.Write (c : Cache) (fs : FS) (id : String) (content : String) :
    Except CacheErr FS :=
  if id = "" then .error .invalidID
  else .ok (putKV fs (c.filePath id) content)

/-- Cache.Delete: removes the current-generation path, falling back to the
legacy path when the category is sharded and the file does not exist; the
not-exist error is propagated when both removals fail. -/
def Cache.Delete (c : Cache) (fs : FS) (id : String) : Except CacheErr FS :=
  if id = "" then .error .invalidID
  else
    match osRemove fs (c.filePath id) with
    | .ok fs1 => .ok fs1
    | .error .notExist =>
        if c.isSharded then
          match osRemove fs (c.legacyFilePath id) with
          | .ok fs1 => .ok fs1
          | .error .notExist => .error .notExist
        else .error .notExist

/-- Modelled from the spec: cache.NewConversations, whose source file is
not among the provided sources (only its callers are), returns the payload
cache for the sharded conversations category under the given base
directory; its operations are the generic cache operations. -/
def NewConversations (baseDir : String) : Cache :=
  { baseDir := baseDir, cType := "conversations" }

/-- Errors of the facade delete: the index step or the payload step. -/
inductive DeleteByIDErr where
  | indexErr (e : DeleteErr)
  | payloadErr (e : CacheErr)
deriving DecidableEq, Repr

/-- Combined facade state: metadata index plus payload file system. -/
structure ConvoStore where
  db : DB
  fs : FS
deriving DecidableEq, Repr

/-- deleteConversationByID of the cmd package: removes the metadata record
first, then the payload file, propagating the first error. -/
def deleteConversationByID (baseDir : String) (st : ConvoStore) (id : String) :
    Except DeleteByIDErr ConvoStore :=
  match DB.Delete st.db id true with
  | (_, some e) => .error (.indexErr e)
  | (db1, none) =>
      match Cache.Delete (NewConversations baseDir) st.fs id with
      | .error e => .error (.payloadErr e)
      | .ok fs1 => .ok ⟨db1, fs1⟩

/-! ### Invariants of the metadata index -/

/-- Well-formedness of the in-memory map: duplicate-free keys, each key
equal to the ID of its record, each record with a nonblank ID. -/
def MapWF (m : ConvoMap) : Prop :=
  (m.map Prod.fst).Nodup ∧ (∀ kv ∈ m, kv.1 = kv.2.ID) ∧
    (∀ kv ∈ m, goTrimSpace kv.2.ID ≠ "")

/-- Extensional equality of two in-memory maps. -/
def MapEq (a b : ConvoMap) : Prop :=
  ∀ id, getKV a id = getKV b id

theorem mapWF_nil : MapWF [] := by
  refine ⟨List.nodup_nil, ?_, ?_⟩ <;> intro kv hkv <;> simp at hkv

theorem mapWF_putKV {m : ConvoMap} (c : Conversation)
    (hwf : MapWF m) (hid : goTrimSpace c.ID ≠ "") : MapWF (putKV m c.ID c) := by
  obtain ⟨h1, h2, h3⟩ := hwf
  refine ⟨nodup_keys_putKV m c.ID c h1, ?_, ?_⟩
  · intro kv hkv
    rcases mem_putKV m c.ID c kv hkv with h | h
    · exact h2 kv h
    · subst h; rfl
  · intro kv hkv
    rcases mem_putKV m c.ID c kv hkv with h | h
    · exact h3 kv h
    · subst h; exact hid

theorem mapWF_delKV {m : ConvoMap} (id : String) (hwf : MapWF m) :
    MapWF (delKV m id) := by
  obtain ⟨h1, h2, h3⟩ := hwf
  exact ⟨nodup_keys_delKV m id h1,
    fun kv hkv => h2 kv (mem_delKV m id kv hkv),
    fun kv hkv => h3 kv (mem_delKV m id kv hkv)⟩

theorem applyEvent_wf {m m1 : ConvoMap} {evt : ConvoEvent}
    (hwf : MapWF m) (h : applyEvent m evt = .ok m1) : MapWF m1 := by
  by_cases h1 : evt.Op = "upsert"
  · cases hc : evt.Convo with
    | none => simp [applyEvent, h1, hc] at h
    | some convo =>
      by_cases h2 : goTrimSpace convo.ID = ""
      · simp [applyEvent, h1, hc, h2] at h
      · simp [applyEvent, h1, hc, h2] at h
        exact h ▸ mapWF_putKV convo hwf h2
  · by_cases h2 : evt.Op = "delete"
    · by_cases h3 : goTrimSpace evt.ID = ""
      · simp [applyEvent, h1, h2, h3] at h
      · simp [applyEvent, h1, h2, h3] at h
        exact h ▸ mapWF_delKV evt.ID hwf
    · simp [applyEvent, h1, h2] at h

theorem loadEvents_wf {log : List ConvoEvent} :
    ∀ {m m1 : ConvoMap}, MapWF m → loadEvents m log = .ok m1 → MapWF m1 := by
  induction log with
  | nil =>
    intro m m1 hwf h
    have : m = m1 := by simpa [loadEvents] using h
    exact this ▸ hwf
  | cons evt rest ih =>
    intro m m1 hwf h
    unfold loadEvents at h
    cases ha : applyEvent m evt with
    | error e => rw [ha] at h; exact absurd h (by simp)
    | ok m2 =>
      rw [ha] at h
      exact ih (applyEvent_wf hwf ha) h

theorem loadEvents_append (m : ConvoMap) (l1 l2 : List ConvoEvent) :
    loadEvents m (l1 ++ l2) =
      match loadEvents m l1 with
      | .ok m1 => loadEvents m1 l2
      | .error e => .error e := by
  induction l1 generalizing m with
  | nil => simp [loadEvents]
  | cons evt rest ih =>
    rw [List.cons_append]
    cases ha : applyEvent m evt with
    | error e => simp [loadEvents, ha]
    | ok m1 => simp only [loadEvents, ha, ih m1]

theorem putKV_eq_append_of_not_mem {β : Type} (m : List (String × β)) (k : String) (v : β)
    (h : k ∉ m.map Prod.fst) : putKV m k v = m ++ [(k, v)] := by
  induction m with
  | nil => simp [putKV]
  | cons kv rest ih =>
    obtain ⟨k2, v2⟩ := kv
    simp only [List.map_cons, List.mem_cons] at h
    push_neg at h
    simp [putKV, Ne.symm h.1, ih h.2]

theorem foldl_putKV_eq_append (cs : List Conversation) (acc : ConvoMap)
    (hn : (cs.map Conversation.ID).Nodup)
    (hd : ∀ c ∈ cs, c.ID ∉ acc.map Prod.fst) :
    cs.foldl (fun acc c => putKV acc c.ID c) acc = acc ++ cs.map (fun c => (c.ID, c)) := by
  induction cs generalizing acc with
  | nil => simp
  | cons c rest ih =>
    simp only [List.map_cons, List.nodup_cons] at hn
    rw [List.foldl_cons,
      putKV_eq_append_of_not_mem acc c.ID c (hd c (List.mem_cons_self _ _)),
      ih (acc ++ [(c.ID, c)]) hn.2]
    · simp
    · intro c1 hc1
      simp only [List.map_append, List.mem_append]
      push_neg
      refine ⟨hd c1 (List.mem_cons_of_mem _ hc1), ?_⟩
      simp only [List.map_cons, List.map_nil, List.mem_singleton]
      intro he
      exact hn.1 (he ▸ List.mem_map_of_mem Conversation.ID hc1)

theorem loadEvents_upserts (cs : List Conversation) (m : ConvoMap)
    (h : ∀ c ∈ cs, goTrimSpace c.ID ≠ "") :
    loadEvents m (cs.map (fun c => { Op := "upsert", Convo := some c })) =
      .ok (cs.foldl (fun acc c => putKV acc c.ID c) m) := by
  induction cs generalizing m with
  | nil => simp [loadEvents]
  | cons c rest ih =>
    rw [List.map_cons, List.foldl_cons]
    unfold loadEvents
    have h1 : applyEvent m { Op := "upsert", Convo := some c } = .ok (putKV m c.ID c) := by
      simp [applyEvent, h c (List.mem_cons_self _ _)]
    rw [h1]
    exact ih (putKV m c.ID c) (fun c1 hc1 => h c1 (List.mem_cons_of_mem _ hc1))

theorem values_ids_eq_keys (m : ConvoMap) (hk : ∀ kv ∈ m, kv.1 = kv.2.ID) :
    (m.map Prod.snd).map Conversation.ID = m.map Prod.fst := by
  induction m with
  | nil => simp
  | cons kv rest ih =>
    simp only [List.map_cons, List.cons.injEq]
    exact ⟨(hk kv (List.mem_cons_self _ _)).symm,
      ih (fun kv1 h1 => hk kv1 (List.mem_cons_of_mem _ h1))⟩

theorem map_pair_eq_self (m : ConvoMap) (hk : ∀ kv ∈ m, kv.1 = kv.2.ID) :
    m.map (fun kv => (kv.2.ID, kv.2)) = m := by
  induction m with
  | nil => simp
  | cons kv rest ih =>
    simp only [List.map_cons, List.cons.injEq]
    refine ⟨?_, ih (fun kv1 h1 => hk kv1 (List.mem_cons_of_mem _ h1))⟩
    have := hk kv (List.mem_cons_self _ _)
    exact Prod.ext this.symm rfl

theorem load_compactLocked (db : DB) (hwf : MapWF db.conversations) :
    ∃ m, load (compactLocked db).log = .ok m ∧ MapEq m db.conversations := by
  obtain ⟨hnd, hk, hne⟩ := hwf
  have hperm : (compactItems db).Perm db.values :=
    List.perm_insertionSort _ _
  have hvids : (db.values.map Conversation.ID).Nodup := by
    rw [DB.values, values_ids_eq_keys db.conversations hk]
    exact hnd
  have hids : ((compactItems db).map Conversation.ID).Nodup :=
    ((hperm.map Conversation.ID).nodup_iff).mpr hvids
  have hne1 : ∀ c ∈ compactItems db, goTrimSpace c.ID ≠ "" := by
    intro c hc
    have hcv : c ∈ db.values := hperm.mem_iff.mp hc
    obtain ⟨kv, hkv, hkvc⟩ := List.mem_map.mp hcv
    exact hkvc ▸ hne kv hkv
  refine ⟨(compactItems db).map (fun c => (c.ID, c)), ?_, ?_⟩
  · have hlog : (compactLocked db).log =
        (compactItems db).map (fun c => { Op := "upsert", Convo := some c }) := rfl
    show loadEvents [] (compactLocked db).log = _
    rw [hlog, loadEvents_upserts _ _ hne1, foldl_putKV_eq_append _ _ hids (by simp)]
    simp
  · have hpair : ((compactItems db).map (fun c => (c.ID, c))).Perm db.conversations := by
      have h1 : ((compactItems db).map (fun c => (c.ID, c))).Perm
          (db.values.map (fun c => (c.ID, c))) := hperm.map _
      have h2 : db.values.map (fun c => (c.ID, c)) = db.conversations := by
        rw [DB.values, List.map_map]
        exact map_pair_eq_self db.conversations hk
      exact h2 ▸ h1
    have hndp : (((compactItems db).map (fun c => (c.ID, c))).map Prod.fst).Nodup := by
      rw [List.map_map]
      exact hids
    intro id
    exact getKV_eq_of_perm hpair hndp id

/-- compactIfNeededLocked either leaves the state alone or compacts. -/
theorem compactIfNeeded_cases (db : DB) :
    compactIfNeededLocked db = db ∨ compactIfNeededLocked db = compactLocked db := by
  unfold compactIfNeededLocked
  split
  · left; rfl
  · split
    · left; rfl
    · right; rfl

/-- Shape of a successful Save: validations passed and the new state is
the in-memory upsert followed by the appended event and the compaction
check. -/
theorem save_ok_shape {db db1 : DB} {id title api model : String} {now : Nat}
    (h : DB.Save db id title api model now true = (db1, none)) :
    goTrimSpace id ≠ "" ∧ goTrimSpace title ≠ "" ∧
      db1 = compactIfNeededLocked (appendEvent
        { db with conversations := putKV db.conversations id (mkConvo id title api model now) }
        { Op := "upsert", Convo := some (mkConvo id title api model now) }) := by
  by_cases h1 : goTrimSpace id = ""
  · simp [DB.Save, h1] at h
  · by_cases h2 : goTrimSpace title = ""
    · simp [DB.Save, h1, h2] at h
    · simp only [DB.Save, h1, h2, if_false, if_true, ite_false, ite_true,
        Prod.mk.injEq] at h
      exact ⟨h1, h2, h.1.symm⟩

/-- Shape of a successful Delete: either a no-op on an absent id, or the
in-memory removal followed by the appended event and the compaction
check. -/
theorem delete_ok_shape {db db1 : DB} {id : String}
    (h : DB.Delete db id true = (db1, none)) :
    goTrimSpace id ≠ "" ∧
      ((getKV db.conversations id = none ∧ db1 = db) ∨
        ((getKV db.conversations id).isSome ∧
          db1 = compactIfNeededLocked (appendEvent
            { db with conversations := delKV db.conversations id }
            { Op := "delete", ID := id }))) := by
  by_cases h1 : goTrimSpace id = ""
  · simp [DB.Delete, h1] at h
  · refine ⟨h1, ?_⟩
    cases hg : getKV db.conversations id with
    | none =>
      left
      simp only [DB.Delete, h1, if_false, ite_false, hg, Prod.mk.injEq] at h
      exact ⟨rfl, h.1.symm⟩
    | some c =>
      right
      simp only [DB.Delete, h1, if_false, ite_false, hg, if_true, ite_true,
        Prod.mk.injEq] at h
      exact ⟨rfl, h.1.symm⟩

/-- Replay invariant: the map is well formed and the persisted log loads
to a map extensionally equal to the in-memory one. -/
def Inv (db : DB) : Prop :=
  MapWF db.conversations ∧ ∃ m, load db.log = .ok m ∧ MapEq m db.conversations

theorem inv_compactLocked {db : DB} (hinv : Inv db) : Inv (compactLocked db) :=
  ⟨hinv.1, load_compactLocked db hinv.1⟩

theorem inv_compactIfNeeded {db : DB} (hinv : Inv db) :
    Inv (compactIfNeededLocked db) := by
  rcases compactIfNeeded_cases db with h | h <;> rw [h]
  · exact hinv
  · exact inv_compactLocked hinv

/-- Appending an upsert for a validated record preserves the invariant. -/
theorem inv_upsert {db : DB} (convo : Conversation)
    (hinv : Inv db) (hid : goTrimSpace convo.ID ≠ "") :
    Inv (appendEvent
      { db with conversations := putKV db.conversations convo.ID convo }
      { Op := "upsert", Convo := some convo }) := by
  obtain ⟨hwf, m, hload, heq⟩ := hinv
  constructor
  · exact mapWF_putKV convo hwf hid
  · refine ⟨putKV m convo.ID convo, ?_, ?_⟩
    · show loadEvents [] (db.log ++ [_]) = _
      rw [loadEvents_append]
      have hl : loadEvents [] db.log = .ok m := hload
      rw [hl]
      have ha : applyEvent m { Op := "upsert", Convo := some convo } =
          .ok (putKV m convo.ID convo) := by
        simp [applyEvent, hid]
      simp [loadEvents, ha]
    · intro id1
      show getKV (putKV m convo.ID convo) id1 =
        getKV (putKV db.conversations convo.ID convo) id1
      rw [getKV_putKV, getKV_putKV]
      by_cases h : id1 = convo.ID
      · simp [h]
      · simp [h, heq id1]

/-- Appending a delete for a validated id preserves the invariant. -/
theorem inv_delete {db : DB} (id : String)
    (hinv : Inv db) (hid : goTrimSpace id ≠ "") :
    Inv (appendEvent
      { db with conversations := delKV db.conversations id }
      { Op := "delete", ID := id }) := by
  obtain ⟨hwf, m, hload, heq⟩ := hinv
  constructor
  · exact mapWF_delKV id hwf
  · refine ⟨delKV m id, ?_, ?_⟩
    · show loadEvents [] (db.log ++ [_]) = _
      rw [loadEvents_append]
      have hl : loadEvents [] db.log = .ok m := hload
      rw [hl]
      have ha : applyEvent m { Op := "delete", ID := id } = .ok (delKV m id) := by
        simp [applyEvent, hid]
      simp [loadEvents, ha]
    · intro id1
      show getKV (delKV m id) id1 = getKV (delKV db.conversations id) id1
      rw [getKV_delKV, getKV_delKV]
      by_cases h : id1 = id
      · simp [h]
      · simp [h, heq id1]

/-- Every state reachable with arbitrary Open steps satisfies the replay
invariant. -/
theorem reachOpen_inv {db : DB} (h : ReachOpen db) : Inv db := by
  induction h with
  | openLog log m hload =>
    exact ⟨loadEvents_wf mapWF_nil hload, m, hload, fun id => rfl⟩
  | save db db1 id title api model now hr heq ih =>
    obtain ⟨h1, h2, h3⟩ := save_ok_shape heq
    exact h3 ▸ inv_compactIfNeeded (inv_upsert (mkConvo id title api model now) ih h1)
  | del db db1 id hr heq ih =>
    obtain ⟨h1, h2⟩ := delete_ok_shape heq
    rcases h2 with ⟨_, h3⟩ | ⟨_, h3⟩
    · exact h3 ▸ ih
    · exact h3 ▸ inv_compactIfNeeded (inv_delete id ih h1)
  | compact db hr ih =>
    exact inv_compactLocked ih

/-- States reachable without Open are reachable with it. -/
theorem reach_reachOpen {db : DB} (h : Reach db) : ReachOpen db := by
  induction h with
  | init => exact ReachOpen.openLog [] [] rfl
  | save db db1 id title api model now hr heq ih =>
    exact ReachOpen.save db db1 id title api model now ih heq
  | del db db1 id hr heq ih =>
    exact ReachOpen.del db db1 id ih heq
  | compact db hr ih =>
    exact ReachOpen.compact db ih

/-- Records reachable without Open also carry nonblank titles. -/
def TitleInv (db : DB) : Prop :=
  ∀ kv ∈ db.conversations, goTrimSpace kv.2.Title ≠ ""

theorem titleInv_compactIfNeeded {db : DB} (h : TitleInv db) :
    TitleInv (compactIfNeededLocked db) := by
  rcases compactIfNeeded_cases db with h1 | h1 <;> rw [h1] <;> exact h

theorem reach_titleInv {db : DB} (h : Reach db) : TitleInv db := by
  induction h with
  | init =>
    intro kv hkv
    simp [DB.empty] at hkv
  | save db db1 id title api model now hr heq ih =>
    obtain ⟨h1, h2, h3⟩ := save_ok_shape heq
    subst h3
    apply titleInv_compactIfNeeded
    intro kv hkv
    rcases mem_putKV _ _ _ _ hkv with hm | hm
    · exact ih kv hm
    · subst hm; exact h2
  | del db db1 id hr heq ih =>
    obtain ⟨h1, h2⟩ := delete_ok_shape heq
    rcases h2 with ⟨_, h3⟩ | ⟨_, h3⟩
    · exact h3 ▸ ih
    · subst h3
      apply titleInv_compactIfNeeded
      intro kv hkv
      exact ih kv (mem_delKV _ _ _ hkv)
  | compact db hr ih =>
    intro kv hkv
    exact ih kv hkv

/-! ### Last-event-wins characterisation of replay -/

/-- Whether a log event concerns the given id. -/
def eventTouches (evt : ConvoEvent) (id : String) : Bool :=
  if evt.Op = "upsert" then
    match evt.Convo with
    | some c => decide (c.ID = id)
    | none => false
  else if evt.Op = "delete" then decide (evt.ID = id)
  else false

/-- The last event of the log concerning the given id, if any. -/
def lastTouch : List ConvoEvent → String → Option ConvoEvent
  | [], _ => none
  | evt :: rest, id =>
      match lastTouch rest id with
      | some e1 => some e1
      | none => if eventTouches evt id then some evt else none

/-- State an event leaves its id in: the record for an upsert, nothing
for a delete. -/
def touchOutcome (evt : ConvoEvent) : Option Conversation :=
  if evt.Op = "upsert" then evt.Convo else none

theorem applyEvent_getKV {m0 m1 : ConvoMap} {evt : ConvoEvent} (id : String)
    (ha : applyEvent m0 evt = .ok m1) :
    getKV m1 id = if eventTouches evt id then touchOutcome evt else getKV m0 id := by
  by_cases h1 : evt.Op = "upsert"
  · cases hc : evt.Convo with
    | none => simp [applyEvent, h1, hc] at ha
    | some c =>
      by_cases h2 : goTrimSpace c.ID = ""
      · simp [applyEvent, h1, hc, h2] at ha
      · simp [applyEvent, h1, hc, h2] at ha
        subst ha
        rw [getKV_putKV]
        by_cases h3 : id = c.ID
        · simp [eventTouches, touchOutcome, h1, hc, h3]
        · simp [eventTouches, touchOutcome, h1, hc, h3, Ne.symm h3]
  · by_cases h2 : evt.Op = "delete"
    · by_cases h3 : goTrimSpace evt.ID = ""
      · simp [applyEvent, h1, h2, h3] at ha
      · simp [applyEvent, h1, h2, h3] at ha
        subst ha
        rw [getKV_delKV]
        by_cases h4 : id = evt.ID
        · simp [eventTouches, touchOutcome, h1, h2, h4]
        · simp [eventTouches, touchOutcome, h1, h2, h4, Ne.symm h4]
    · simp [applyEvent, h1, h2] at ha

theorem loadEvents_lastTouch {log : List ConvoEvent} :
    ∀ {m0 m : ConvoMap} (id : String), loadEvents m0 log = .ok m →
      getKV m id = (match lastTouch log id with
        | some e => touchOutcome e
        | none => getKV m0 id) := by
  induction log with
  | nil =>
    intro m0 m id h
    have hm : m0 = m := by simpa [loadEvents] using h
    simp [lastTouch, hm]
  | cons evt rest ih =>
    intro m0 m id h
    cases ha : applyEvent m0 evt with
    | error e => simp [loadEvents, ha] at h
    | ok m1 =>
      simp only [loadEvents, ha] at h
      have hrest := ih id h
      cases hl : lastTouch rest id with
      | some e1 => simp only [lastTouch, hl]; simpa [hl] using hrest
      | none =>
        simp only [lastTouch, hl]
        rw [hl] at hrest
        simp only at hrest
        rw [hrest]
        have hae := applyEvent_getKV id ha
        by_cases ht : eventTouches evt id
        · simpa [ht] using hae
        · simpa [ht] using hae

/-! ### Concrete stores used by the witnesses -/

/-- Forty-character identifier, in the shape NewConversationID yields. -/
def fortyAs : String := "aaaaaaaaaaaaaaaaaaaaaaaaaaaaaaaaaaaaaaaa"

/-- Concrete store: one record saved into a fresh store. -/
def demoDB : DB := (DB.Save DB.empty fortyAs "trip planning" "openai" "gpt-4o" 5 true).1

theorem reach_demoDB : Reach demoDB :=
  Reach.save DB.empty demoDB fortyAs "trip planning" "openai" "gpt-4o" 5 Reach.init rfl

/-! ### Claim theorems -/

/-- C1: for every state reached by a finite sequence of Save and Delete
operations (with compaction), replaying the persisted log from the empty
map reproduces the in-memory map, so reopening the directory yields the
same state; the replayed binding of every id is decided by the last event
concerning it, with a delete removing the id regardless of prior state. -/
theorem replay_determinism (db : DB) (h : Reach db) :
    ∃ m, load db.log = .ok m ∧ MapEq m db.conversations ∧
      ∀ id, getKV m id = (match lastTouch db.log id with
        | some e => touchOutcome e
        | none => none) := by
  obtain ⟨hwf, m, hload, heq⟩ := reachOpen_inv (reach_reachOpen h)
  refine ⟨m, hload, heq, fun id => ?_⟩
  have hl : loadEvents [] db.log = .ok m := hload
  have h1 := loadEvents_lastTouch id hl
  simpa [getKV] using h1

/-- Witness for C1: the replay equality at a concrete store with one
saved record. -/
theorem replay_determinism_witness :
    ∃ m, load demoDB.log = .ok m ∧ MapEq m demoDB.conversations ∧
      ∀ id, getKV m id = (match lastTouch demoDB.log id with
        | some e => touchOutcome e
        | none => none) :=
  replay_determinism demoDB reach_demoDB

/-- C4 (amended): every record in any reachable state, including states
produced by Open replaying an arbitrary accepted log, has a non-empty id;
in states reached from the empty store by Save, Delete and compaction
alone, every record also has a non-empty title.  The title half cannot be
extended to Open, because applyEvent does not validate titles. -/
theorem index_records_nonempty (db1 db2 : DB)
    (h1 : ReachOpen db1) (h2 : Reach db2) :
    (∀ kv ∈ db1.conversations, kv.2.ID ≠ "") ∧
    (∀ kv ∈ db2.conversations, kv.2.ID ≠ "" ∧ kv.2.Title ≠ "") := by
  have hne1 := (reachOpen_inv h1).1.2.2
  have hne2 := (reachOpen_inv (reach_reachOpen h2)).1.2.2
  have ht2 := reach_titleInv h2
  constructor
  · intro kv hkv he
    exact hne1 kv hkv (by rw [he]; rfl)
  · intro kv hkv
    refine ⟨fun he => hne2 kv hkv (by rw [he]; rfl),
      fun he => ht2 kv hkv (by rw [he]; rfl)⟩

/-- Witness for C4 at concrete stores. -/
theorem index_records_nonempty_witness :
    (∀ kv ∈ demoDB.conversations, kv.2.ID ≠ "") ∧
    (∀ kv ∈ demoDB.conversations, kv.2.ID ≠ "" ∧ kv.2.Title ≠ "") :=
  index_records_nonempty demoDB demoDB (reach_reachOpen reach_demoDB) reach_demoDB

/-- Record with an empty title accepted during replay. -/
def emptyTitleConvo : Conversation := ⟨"a", "", 0, none, none⟩

/-- Log containing a single upsert event with an empty title. -/
def emptyTitleLog : List ConvoEvent :=
  [{ Op := "upsert", Convo := some emptyTitleConvo }]

/-- State Open builds from that log. -/
def emptyTitleDB : DB := ⟨[("a", emptyTitleConvo)], emptyTitleLog, 1⟩

/-- Counterexample for C4 as stated: Open accepts a log whose upsert event
carries an empty title, so the resulting reachable state holds a record
with an empty title. -/
theorem open_accepts_empty_title :
    ReachOpen emptyTitleDB ∧ openDB emptyTitleLog = .ok emptyTitleDB ∧
      ∃ kv ∈ emptyTitleDB.conversations, kv.2.Title = "" := by
  refine ⟨?_, by rfl, ?_⟩
  · exact ReachOpen.openLog emptyTitleLog [("a", emptyTitleConvo)] (by rfl)
  · exact ⟨("a", emptyTitleConvo), by simp [emptyTitleDB], rfl⟩

/-- C7: when the durable append fails, Save reports the failure while the
in-memory map already holds the new record and the persisted log and
event counter are unchanged: memory is left ahead of disk. -/
theorem save_append_failure (db : DB) (id title api model : String) (now : Nat)
    (h1 : goTrimSpace id ≠ "") (h2 : goTrimSpace title ≠ "") :
    ∃ db1, DB.Save db id title api model now false = (db1, some SaveErr.appendFailed) ∧
      getKV db1.conversations id = some (mkConvo id title api model now) ∧
      db1.log = db.log ∧ db1.ops = db.ops := by
  refine ⟨DB.mk (putKV db.conversations id (mkConvo id title api model now))
      db.log db.ops, ?_, ?_, rfl, rfl⟩
  · simp [DB.Save, h1, h2]
  · show getKV (putKV db.conversations id (mkConvo id title api model now)) id = _
    rw [getKV_putKV]
    simp

/-- Witness for C7 at a concrete store and record. -/
theorem save_append_failure_witness :
    ∃ db1, DB.Save demoDB "bbbbbbbb" "second title" "openai" "gpt-4o" 9 false =
        (db1, some SaveErr.appendFailed) ∧
      getKV db1.conversations "bbbbbbbb" =
        some (mkConvo "bbbbbbbb" "second title" "openai" "gpt-4o" 9) ∧
      db1.log = demoDB.log ∧ db1.ops = demoDB.ops :=
  save_append_failure demoDB "bbbbbbbb" "second title" "openai" "gpt-4o" 9
    (by decide) (by decide)

/-- Match rule stated by the spec for Find: exact title equality for
queries shorter than the minimum prefix length, id-prefix or exact title
otherwise. -/
def specFindMatch (q : String) (c : Conversation) : Bool :=
  if goLen q < SHA1MinLen then decide (c.Title = q)
  else goHasPrefix c.ID q || decide (c.Title = q)

/-- C3: Find resolves queries by the spec match rule with forced
disambiguation: a NotFound error exactly when no record matches, an
AmbiguousMatch error exactly when more than one record matches, and the
unique matching record when exactly one does; short queries match only by
exact title. -/
theorem find_matching_rule (db : DB) (q : String) :
    (DB.Find db q = .error .noMatches ↔ db.values.countP (specFindMatch q) = 0) ∧
    (DB.Find db q = .error .manyMatches ↔ 1 < db.values.countP (specFindMatch q)) ∧
    (∀ c, DB.Find db q = .ok c ↔
      db.values.countP (specFindMatch q) = 1 ∧ c ∈ db.values ∧ specFindMatch q c = true) := by
  have hunf : DB.Find db q =
      (if 1 < (db.values.filter (specFindMatch q)).length then .error .manyMatches
       else match db.values.filter (specFindMatch q) with
         | [c] => .ok c
         | _ => .error .noMatches) := by
    by_cases hq : goLen q < SHA1MinLen
    · have hfeq : db.values.filter (specFindMatch q) =
          db.values.filter (fun c => decide (c.Title = q)) := by
        apply List.filter_congr
        intro c hc
        simp [specFindMatch, hq]
      rw [hfeq]
      simp only [DB.Find, hq, ite_true]
    · have hfeq : db.values.filter (specFindMatch q) =
          db.values.filter (fun c => goHasPrefix c.ID q || decide (c.Title = q)) := by
        apply List.filter_congr
        intro c hc
        simp [specFindMatch, hq]
      rw [hfeq]
      simp only [DB.Find, hq, ite_false]
  have hcp : db.values.countP (specFindMatch q) =
      (db.values.filter (specFindMatch q)).length :=
    List.countP_eq_length_filter _ _
  cases hF : db.values.filter (specFindMatch q) with
  | nil =>
    rw [hF] at hunf hcp
    have hfind : DB.Find db q = .error .noMatches := by
      rw [hunf]; rfl
    have hcp0 : db.values.countP (specFindMatch q) = 0 := by rw [hcp]; rfl
    refine ⟨by simp [hfind, hcp0], by simp [hfind, hcp0], fun c => ?_⟩
    rw [hfind, hcp0]
    constructor
    · intro h; exact absurd h (by simp)
    · rintro ⟨h1, _, _⟩; omega
  | cons c1 tl =>
    cases tl with
    | nil =>
      rw [hF] at hunf hcp
      have hfind : DB.Find db q = .ok c1 := by
        rw [hunf]; rfl
      have hcp1 : db.values.countP (specFindMatch q) = 1 := by rw [hcp]; rfl
      have hc1 : c1 ∈ db.values ∧ specFindMatch q c1 = true := by
        have hmem : c1 ∈ db.values.filter (specFindMatch q) := by
          rw [hF]; exact List.mem_cons_self _ _
        exact List.mem_filter.mp hmem
      refine ⟨by simp [hfind, hcp1], by simp [hfind, hcp1], fun c => ?_⟩
      rw [hfind, hcp1]
      constructor
      · intro h
        have hc : c1 = c := by simpa using h
        subst hc
        exact ⟨rfl, hc1.1, hc1.2⟩
      · rintro ⟨h1, h2, h3⟩
        have hmem : c ∈ db.values.filter (specFindMatch q) :=
          List.mem_filter.mpr ⟨h2, h3⟩
        rw [hF] at hmem
        have hc : c = c1 := by simpa using hmem
        subst hc
        rfl
    | cons c2 tl2 =>
      rw [hF] at hunf hcp
      have hlen : 1 < (c1 :: c2 :: tl2).length := by
        simp only [List.length_cons]
        omega
      have hfind : DB.Find db q = .error .manyMatches := by
        rw [hunf, if_pos hlen]
      have hcps : db.values.countP (specFindMatch q) = tl2.length + 2 := by
        rw [hcp]; simp only [List.length_cons]
      refine ⟨?_, ?_, fun c => ?_⟩
      · rw [hfind, hcps]
        constructor
        · intro h; exact absurd h (by simp)
        · intro h; omega
      · rw [hfind, hcps]
        constructor
        · intro h; omega
        · intro h; rfl
      · rw [hfind, hcps]
        constructor
        · intro h; exact absurd h (by simp)
        · rintro ⟨h1, _, _⟩; omega

/-- Number of log events concerning an id. -/
def countEventsFor (log : List ConvoEvent) (id : String) : Nat :=
  log.countP (fun e => eventTouches e id)

theorem countP_keys_nodup {β : Type} (m : List (String × β)) (id : String)
    (hnd : (m.map Prod.fst).Nodup) :
    m.countP (fun kv => decide (kv.1 = id)) = if (getKV m id).isSome then 1 else 0 := by
  induction m with
  | nil => simp [getKV]
  | cons kv rest ih =>
    obtain ⟨k, v⟩ := kv
    simp only [List.map_cons, List.nodup_cons] at hnd
    by_cases hk : k = id
    · subst hk
      rw [List.countP_cons]
      have h0 : rest.countP (fun kv => decide (kv.1 = k)) = 0 := by
        rw [List.countP_eq_zero]
        intro kv hkv
        simp only [decide_eq_true_eq]
        intro he
        exact hnd.1 (he ▸ List.mem_map_of_mem Prod.fst hkv)
      simp [getKV, h0]
    · rw [List.countP_cons]
      have hres := ih hnd.2
      simp [getKV, hk, Ne.symm hk, hres]

/-- C5: compaction is a frame operation on the record set: the in-memory
map is untouched, List() is unchanged, the rewritten log consists of
upsert events only with exactly one event per live id and none for dead
ids, and replaying the rewritten log reproduces the live map. -/
theorem compaction_frame (db : DB) (h : Reach db) :
    (compactLocked db).conversations = db.conversations ∧
    DB.ListAll (compactLocked db) = DB.ListAll db ∧
    (∀ e ∈ (compactLocked db).log, e.Op = "upsert") ∧
    (∀ id, countEventsFor (compactLocked db).log id =
      if (getKV db.conversations id).isSome then 1 else 0) ∧
    (∃ m, load (compactLocked db).log = .ok m ∧ MapEq m db.conversations) := by
  obtain ⟨hwf, _⟩ := reachOpen_inv (reach_reachOpen h)
  obtain ⟨hnd, hk, hne⟩ := hwf
  refine ⟨rfl, rfl, ?_, ?_, load_compactLocked db ⟨hnd, hk, hne⟩⟩
  · intro e he
    obtain ⟨c, hc, hce⟩ := List.mem_map.mp he
    rw [← hce]
  · intro id
    have hperm : (compactItems db).Perm db.values := List.perm_insertionSort _ _
    have hlog : (compactLocked db).log =
        (compactItems db).map (fun c => { Op := "upsert", Convo := some c }) := rfl
    unfold countEventsFor
    rw [hlog, List.countP_map]
    have hstep1 : (compactItems db).countP
        ((fun e => eventTouches e id) ∘ (fun c => { Op := "upsert", Convo := some c })) =
        (compactItems db).countP (fun c => decide (c.ID = id)) := by
      apply List.countP_congr
      intro c hc
      simp [eventTouches]
    rw [hstep1, hperm.countP_eq]
    have hstep2 : db.values.countP (fun c => decide (c.ID = id)) =
        db.conversations.countP (fun kv => decide (kv.1 = id)) := by
      rw [DB.values, List.countP_map]
      apply List.countP_congr
      intro kv hkv
      simp only [Function.comp_apply, decide_eq_decide]
      rw [← hk kv hkv]
    rw [hstep2]
    exact countP_keys_nodup db.conversations id hnd

/-- Witness for C5 at a concrete reachable store. -/
theorem compaction_frame_witness :
    (compactLocked demoDB).conversations = demoDB.conversations ∧
    DB.ListAll (compactLocked demoDB) = DB.ListAll demoDB ∧
    (∀ e ∈ (compactLocked demoDB).log, e.Op = "upsert") ∧
    (∀ id, countEventsFor (compactLocked demoDB).log id =
      if (getKV demoDB.conversations id).isSome then 1 else 0) ∧
    (∃ m, load (compactLocked demoDB).log = .ok m ∧ MapEq m demoDB.conversations) :=
  compaction_frame demoDB reach_demoDB

theorem completionEntriesFor_subset (q : String) (c : Conversation)
    (hq : goLen q < SHA1Short) :
    ∀ s ∈ completionEntriesFor q c, s ∈ completionEntriesFor "" c := by
  intro s hs
  have hid : goHasPrefix c.ID "" = true := by simp [goHasPrefix]
  have htitle : goHasPrefix c.Title "" = true := by simp [goHasPrefix]
  have hq0 : goLen "" < SHA1Short := by decide
  unfold completionEntriesFor at hs ⊢
  rcases List.mem_append.mp hs with h | h
  · by_cases hp : goHasPrefix c.ID q
    · rw [if_pos hp] at h
      apply List.mem_append_left
      rw [if_pos hid]
      simpa [hq, hq0] using h
    · rw [if_neg hp] at h
      simp at h
  · by_cases hp : goHasPrefix c.Title q
    · rw [if_pos hp] at h
      apply List.mem_append_right
      rw [if_pos htitle]
      exact h
    · rw [if_neg hp] at h
      simp at h

/-- C9 (amended): for every store state, the completion candidates of a
query shorter than SHA1Short bytes are a subset of the candidates of the
empty query, because the id display is truncated identically in both; for
queries of length SHA1Short or more, such as an eight-character id
prefix, the subset relation fails since the matching id is displayed in
full there but truncated for the empty query. -/
theorem completions_subset (db : DB) (q : String) (hq : goLen q < SHA1Short) :
    ∀ s ∈ DB.Completions db q, s ∈ DB.Completions db "" := by
  intro s hs
  have hperm1 : (DB.Completions db q).Perm
      ((db.values.flatMap (completionEntriesFor q)).dedup) :=
    List.perm_insertionSort _ _
  have h1 := List.mem_dedup.mp (hperm1.mem_iff.mp hs)
  obtain ⟨c, hc, hsc⟩ := List.mem_flatMap.mp h1
  have h2 : s ∈ db.values.flatMap (completionEntriesFor "") :=
    List.mem_flatMap.mpr ⟨c, hc, completionEntriesFor_subset q c hq s hsc⟩
  have hperm2 : (DB.Completions db "").Perm
      ((db.values.flatMap (completionEntriesFor "")).dedup) :=
    List.perm_insertionSort _ _
  exact hperm2.mem_iff.mpr (List.mem_dedup.mpr h2)

/-- Witness for C9 at a concrete store and a four-character prefix of the
forty-character id. -/
theorem completions_subset_witness :
    goLen "aaaa" < SHA1Short ∧
      ∀ s ∈ DB.Completions demoDB "aaaa", s ∈ DB.Completions demoDB "" :=
  ⟨by decide, completions_subset demoDB "aaaa" (by decide)⟩

/-- Counterexample for C9 as stated: in the store holding one record with
the forty-character id, the candidate list for the eight-character id
prefix contains the full-id entry, which the empty-query candidate list
does not contain, so Completions(fullID[:8]) is not a subset (in
particular not a strict subset) of Completions(""). -/
theorem completions_not_subset :
    (fortyAs ++ "\t" ++ "trip planning") ∈ DB.Completions demoDB (goSlice fortyAs 8) ∧
    (fortyAs ++ "\t" ++ "trip planning") ∉ DB.Completions demoDB "" := by
  decide

/-- Schema of a log line this program writes: an op field of "upsert" or
"delete"; an id field exactly for deletes; a conversation field exactly
for upserts, whose keys are the Go field names ID, Title, UpdatedAt, API
and Model. -/
def eventSchemaOK (evt : ConvoEvent) : Prop :=
  (evt.Op = "upsert" ∧ evt.ID = "" ∧
    ∃ c, evt.Convo = some c ∧
      marshalConvoEvent evt =
        [("op", .str "upsert"), ("conversation", .obj (marshalConversation c))] ∧
      (marshalConversation c).map Prod.fst = ["ID", "Title", "UpdatedAt", "API", "Model"]) ∨
  (evt.Op = "delete" ∧ evt.Convo = none ∧ evt.ID ≠ "" ∧
    marshalConvoEvent evt = [("op", .str "delete"), ("id", .str evt.ID)])

theorem eventSchemaOK_upsert (c : Conversation) :
    eventSchemaOK { Op := "upsert", Convo := some c } := by
  left
  exact ⟨rfl, rfl, c, rfl, rfl, rfl⟩

theorem eventSchemaOK_delete (id : String) (hid : id ≠ "") :
    eventSchemaOK { Op := "delete", ID := id } := by
  right
  refine ⟨rfl, rfl, hid, ?_⟩
  simp [marshalConvoEvent, hid]

theorem log_schema_compactLocked (db : DB) :
    ∀ evt ∈ (compactLocked db).log, eventSchemaOK evt := by
  intro evt he
  obtain ⟨c, hc, hce⟩ := List.mem_map.mp he
  exact hce ▸ eventSchemaOK_upsert c

theorem log_schema_compactIfNeeded {db : DB}
    (h : ∀ evt ∈ db.log, eventSchemaOK evt) :
    ∀ evt ∈ (compactIfNeededLocked db).log, eventSchemaOK evt := by
  rcases compactIfNeeded_cases db with hc | hc <;> rw [hc]
  · exact h
  · exact log_schema_compactLocked db

/-- C2 (amended): every line of the event log written by Save, Delete or
compaction is a JSON object {op, id?, conversation?} with op "upsert" or
"delete", the id field present exactly for deletes and the conversation
field exactly for upserts; the nested conversation object uses exactly
the keys ID, Title, UpdatedAt, API and Model (Go field names, because the
struct carries db: tags which encoding/json ignores), not the lowercase
snake-case keys. -/
theorem log_line_schema (db : DB) (h : Reach db) :
    ∀ evt ∈ db.log, eventSchemaOK evt := by
  induction h with
  | init =>
    intro evt he
    simp [DB.empty] at he
  | save db db1 id title api model now hr heq ih =>
    obtain ⟨h1, h2, h3⟩ := save_ok_shape heq
    subst h3
    apply log_schema_compactIfNeeded
    intro evt he
    rcases List.mem_append.mp he with hm | hm
    · exact ih evt hm
    · have : evt = { Op := "upsert", Convo := some (mkConvo id title api model now) } := by
        simpa using hm
      exact this ▸ eventSchemaOK_upsert _
  | del db db1 id hr heq ih =>
    obtain ⟨h1, hsh⟩ := delete_ok_shape heq
    rcases hsh with ⟨_, h3⟩ | ⟨_, h3⟩
    · exact h3 ▸ ih
    · subst h3
      apply log_schema_compactIfNeeded
      intro evt he
      rcases List.mem_append.mp he with hm | hm
      · exact ih evt hm
      · have hevt : evt = { Op := "delete", ID := id } := by simpa using hm
        have hid : id ≠ "" := fun he1 => h1 (by rw [he1]; rfl)
        exact hevt ▸ eventSchemaOK_delete id hid
  | compact db hr ih =>
    exact log_schema_compactLocked db

/-- Upsert event Save writes for the demo record. -/
def demoEvent : ConvoEvent :=
  { Op := "upsert", Convo := some (mkConvo fortyAs "trip planning" "openai" "gpt-4o" 5) }

/-- Witness for C2: the schema of the concrete event in the demo log. -/
theorem log_line_schema_witness : eventSchemaOK demoEvent :=
  log_line_schema demoDB reach_demoDB demoEvent (by decide)

/-- Counterexample for C2 as stated: the upsert event Save writes for the
demo record marshals its nested conversation object with the Go
field-name keys, which differ from the keys id, title, updated_at, api,
model the spec lists. -/
theorem log_line_keys_not_snake_case :
    demoDB.log = [demoEvent] ∧
    (marshalConversation (mkConvo fortyAs "trip planning" "openai" "gpt-4o" 5)).map
      Prod.fst = ["ID", "Title", "UpdatedAt", "API", "Model"] ∧
    (marshalConversation (mkConvo fortyAs "trip planning" "openai" "gpt-4o" 5)).map
      Prod.fst ≠ ["id", "title", "updated_at", "api", "model"] := by
  refine ⟨by decide, rfl, by decide⟩

/-! ### Facade delete and payload cache claims -/

theorem newConversations_sharded (baseDir : String) :
    (NewConversations baseDir).isSharded = true := rfl

/-- Behaviour of Cache.Delete on a sharded cache: current path first, then
the legacy path, with the not-exist error propagated when both fail. -/
theorem cacheDelete_rule (c : Cache) (fs : FS) (id : String)
    (hid : id ≠ "") (hsh : c.isSharded = true) :
    Cache.Delete c fs id =
      (if (getKV fs (c.filePath id)).isSome then .ok (delKV fs (c.filePath id))
       else if (getKV fs (c.legacyFilePath id)).isSome then
         .ok (delKV fs (c.legacyFilePath id))
       else .error .notExist) := by
  unfold Cache.Delete osRemove
  rw [if_neg hid]
  cases h1 : getKV fs (c.filePath id) with
  | some v => simp [h1]
  | none =>
    cases h2 : getKV fs (c.legacyFilePath id) with
    | some v => simp [h1, h2, hsh]
    | none => simp [h1, h2, hsh]

/-- Successful DB.Delete with a nonblank id, and the id is gone from the
in-memory map afterwards. -/
theorem dbDelete_removes (db : DB) (id : String) (hid : goTrimSpace id ≠ "") :
    ∃ db1, DB.Delete db id true = (db1, none) ∧ getKV db1.conversations id = none := by
  cases hg : getKV db.conversations id with
  | none => exact ⟨db, by simp [DB.Delete, hid, hg], hg⟩
  | some c =>
    refine ⟨compactIfNeededLocked (appendEvent
      (DB.mk (delKV db.conversations id) db.log db.ops)
      { Op := "delete", ID := id }), ?_, ?_⟩
    · simp [DB.Delete, hid, hg]
    · have hconv : (compactIfNeededLocked (appendEvent
          (DB.mk (delKV db.conversations id) db.log db.ops)
          { Op := "delete", ID := id })).conversations = delKV db.conversations id := by
        rcases compactIfNeeded_cases (appendEvent
          (DB.mk (delKV db.conversations id) db.log db.ops)
          { Op := "delete", ID := id }) with hc | hc <;> rw [hc] <;> rfl
      rw [hconv, getKV_delKV]
      simp

/-- C6 (amended): the facade delete removes the metadata record and then
the payload file; the metadata record being already absent is tolerated,
but when the payload file is absent at both the sharded and the legacy
path the call fails with the propagated not-exist error instead of
succeeding. -/
theorem deleteConversationByID_rule (baseDir : String) (db : DB) (fs : FS) (id : String)
    (hid : goTrimSpace id ≠ "") :
    (∀ st1, deleteConversationByID baseDir ⟨db, fs⟩ id = .ok st1 →
      getKV st1.db.conversations id = none) ∧
    ((∃ st1, deleteConversationByID baseDir ⟨db, fs⟩ id = .ok st1) ↔
      ((getKV fs ((NewConversations baseDir).filePath id)).isSome ∨
        (getKV fs ((NewConversations baseDir).legacyFilePath id)).isSome)) := by
  have hid1 : id ≠ "" := fun he => hid (by rw [he]; rfl)
  obtain ⟨db1, hdel, hgone⟩ := dbDelete_removes db id hid
  have hcd := cacheDelete_rule (NewConversations baseDir) fs id hid1
    (newConversations_sharded baseDir)
  have hunf : deleteConversationByID baseDir ⟨db, fs⟩ id =
      (match Cache.Delete (NewConversations baseDir) fs id with
       | .error e => .error (.payloadErr e)
       | .ok fs1 => .ok ⟨db1, fs1⟩) := by
    unfold deleteConversationByID
    rw [hdel]
  by_cases h1 : (getKV fs ((NewConversations baseDir).filePath id)).isSome
  · rw [if_pos h1] at hcd
    refine ⟨?_, ?_⟩
    · intro st1 hst1
      rw [hunf, hcd] at hst1
      have : st1 = ⟨db1, delKV fs ((NewConversations baseDir).filePath id)⟩ := by
        simpa using hst1.symm
      rw [this]
      exact hgone
    · exact ⟨fun _ => Or.inl h1,
        fun _ => ⟨⟨db1, delKV fs ((NewConversations baseDir).filePath id)⟩,
          by rw [hunf, hcd]⟩⟩
  · rw [if_neg h1] at hcd
    by_cases h2 : (getKV fs ((NewConversations baseDir).legacyFilePath id)).isSome
    · rw [if_pos h2] at hcd
      refine ⟨?_, ?_⟩
      · intro st1 hst1
        rw [hunf, hcd] at hst1
        have : st1 = ⟨db1, delKV fs ((NewConversations baseDir).legacyFilePath id)⟩ := by
          simpa using hst1.symm
        rw [this]
        exact hgone
      · exact ⟨fun _ => Or.inr h2,
          fun _ => ⟨⟨db1, delKV fs ((NewConversations baseDir).legacyFilePath id)⟩,
            by rw [hunf, hcd]⟩⟩
    · rw [if_neg h2] at hcd
      refine ⟨?_, ?_⟩
      · intro st1 hst1
        rw [hunf, hcd] at hst1
        simp at hst1
      · constructor
        · rintro ⟨st1, hst1⟩
          rw [hunf, hcd] at hst1
          simp at hst1
        · rintro (hc | hc)
          · exact absurd hc h1
          · exact absurd hc h2

/-- Witness for C6: deleting a record whose metadata entry is absent but
whose payload exists at the legacy path succeeds and leaves the id
unmapped. -/
theorem deleteConversationByID_rule_witness :
    goTrimSpace "abc123def456" ≠ "" ∧
    ((∀ st1, deleteConversationByID "cache"
        ⟨DB.empty, [((NewConversations "cache").legacyFilePath "abc123def456", "payload")]⟩
        "abc123def456" = .ok st1 →
      getKV st1.db.conversations "abc123def456" = none) ∧
    ((∃ st1, deleteConversationByID "cache"
        ⟨DB.empty, [((NewConversations "cache").legacyFilePath "abc123def456", "payload")]⟩
        "abc123def456" = .ok st1) ↔
      ((getKV [((NewConversations "cache").legacyFilePath "abc123def456", "payload")]
          ((NewConversations "cache").filePath "abc123def456")).isSome ∨
        (getKV [((NewConversations "cache").legacyFilePath "abc123def456", "payload")]
          ((NewConversations "cache").legacyFilePath "abc123def456")).isSome))) :=
  ⟨by decide, deleteConversationByID_rule "cache" DB.empty
    [((NewConversations "cache").legacyFilePath "abc123def456", "payload")]
    "abc123def456" (by decide)⟩

/-- Counterexample for C6 as stated: with the metadata record absent and
no payload file anywhere, the facade delete fails with the propagated
not-exist error instead of succeeding. -/
theorem delete_missing_payload_fails :
    deleteConversationByID "cache" ⟨DB.empty, []⟩ "abc123def456" =
      .error (.payloadErr .notExist) := by
  rfl

/-- C8: a payload present at the flat legacy path of the sharded
conversations category stays reachable: Read returns the sharded-path
content when that file exists and otherwise falls back to the legacy
content, and Delete succeeds, removing the legacy file when the sharded
path is absent. -/
theorem legacy_payload_reachable (baseDir : String) (fs : FS) (id content : String)
    (hid : id ≠ "")
    (hleg : getKV fs ((NewConversations baseDir).legacyFilePath id) = some content) :
    (∀ sc, getKV fs ((NewConversations baseDir).filePath id) = some sc →
      Cache.Read (NewConversations baseDir) fs id = .ok sc) ∧
    (getKV fs ((NewConversations baseDir).filePath id) = none →
      Cache.Read (NewConversations baseDir) fs id = .ok content ∧
      Cache.Delete (NewConversations baseDir) fs id =
        .ok (delKV fs ((NewConversations baseDir).legacyFilePath id))) ∧
    (∃ fs1, Cache.Delete (NewConversations baseDir) fs id = .ok fs1) := by
  have hcd := cacheDelete_rule (NewConversations baseDir) fs id hid
    (newConversations_sharded baseDir)
  refine ⟨?_, ?_, ?_⟩
  · intro sc hsc
    unfold Cache.Read osOpen
    rw [if_neg hid, hsc]
  · intro hnone
    refine ⟨?_, ?_⟩
    · unfold Cache.Read osOpen
      rw [if_neg hid, hnone]
      simp [newConversations_sharded baseDir, hleg]
    · rw [hcd, if_neg (by simp [hnone]), if_pos (by simp [hleg])]
  · rw [hcd]
    by_cases h1 : (getKV fs ((NewConversations baseDir).filePath id)).isSome
    · rw [if_pos h1]
      exact ⟨_, rfl⟩
    · rw [if_neg h1, if_pos (by simp [hleg])]
      exact ⟨_, rfl⟩

/-- Witness for C8 at a concrete file system holding only the legacy
file. -/
theorem legacy_payload_reachable_witness :
    (∀ sc, getKV [((NewConversations "cache").legacyFilePath "abcd", "payload")]
        ((NewConversations "cache").filePath "abcd") = some sc →
      Cache.Read (NewConversations "cache")
        [((NewConversations "cache").legacyFilePath "abcd", "payload")] "abcd" = .ok sc) ∧
    (getKV [((NewConversations "cache").legacyFilePath "abcd", "payload")]
        ((NewConversations "cache").filePath "abcd") = none →
      Cache.Read (NewConversations "cache")
        [((NewConversations "cache").legacyFilePath "abcd", "payload")] "abcd" =
        .ok "payload" ∧
      Cache.Delete (NewConversations "cache")
        [((NewConversations "cache").legacyFilePath "abcd", "payload")] "abcd" =
        .ok (delKV [((NewConversations "cache").legacyFilePath "abcd", "payload")]
          ((NewConversations "cache").legacyFilePath "abcd"))) ∧
    (∃ fs1, Cache.Delete (NewConversations "cache")
      [((NewConversations "cache").legacyFilePath "abcd", "payload")] "abcd" = .ok fs1) :=
  legacy_payload_reachable "cache"
    [((NewConversations "cache").legacyFilePath "abcd", "payload")] "abcd" "payload"
    (by decide) (by decide)

/-- C10: a non-empty id shorter than the shard prefix length maps to the
flat legacy path even for the sharded conversations category, and Read,
Write and Delete on it behave exactly as single flat-path operations, so
the shard slice of the id is never taken. -/
theorem short_id_uses_legacy (baseDir : String) (fs : FS) (id content : String)
    (hid : id ≠ "") (hlen : goLen id < shardPrefixLen) :
    (NewConversations baseDir).filePath id =
      (NewConversations baseDir).legacyFilePath id ∧
    Cache.Read (NewConversations baseDir) fs id =
      (match osOpen fs ((NewConversations baseDir).legacyFilePath id) with
       | .ok c => .ok c
       | .error .notExist => .error .notExist) ∧
    Cache.Write (NewConversations baseDir) fs id content =
      .ok (putKV fs ((NewConversations baseDir).legacyFilePath id) content) ∧
    Cache.Delete (NewConversations baseDir) fs id =
      (match osRemove fs ((NewConversations baseDir).legacyFilePath id) with
       | .ok fs1 => .ok fs1
       | .error .notExist => .error .notExist) := by
  have hfp : (NewConversations baseDir).filePath id =
      (NewConversations baseDir).legacyFilePath id := by
    unfold Cache.filePath
    rw [if_pos]
    simp [hlen]
  refine ⟨hfp, ?_, ?_, ?_⟩
  · unfold Cache.Read
    rw [if_neg hid, hfp]
    cases h1 : osOpen fs ((NewConversations baseDir).legacyFilePath id) with
    | ok c => rfl
    | error e =>
      cases e
      simp [newConversations_sharded baseDir, h1]
  · unfold Cache.Write
    rw [if_neg hid, hfp]
  · unfold Cache.Delete
    rw [if_neg hid, hfp]
    cases h1 : osRemove fs ((NewConversations baseDir).legacyFilePath id) with
    | ok fs1 => rfl
    | error e =>
      cases e
      simp [newConversations_sharded baseDir, h1]

/-- Witness for C10 at a one-character id. -/
theorem short_id_uses_legacy_witness :
    (NewConversations "cache").filePath "a" =
      (NewConversations "cache").legacyFilePath "a" ∧
    Cache.Read (NewConversations "cache") [] "a" =
      (match osOpen [] ((NewConversations "cache").legacyFilePath "a") with
       | .ok c => .ok c
       | .error .notExist => .error .notExist) ∧
    Cache.Write (NewConversations "cache") [] "a" "payload" =
      .ok (putKV [] ((NewConversations "cache").legacyFilePath "a") "payload") ∧
    Cache.Delete (NewConversations "cache") [] "a" =
      (match osRemove [] ((NewConversations "cache").legacyFilePath "a") with
       | .ok fs1 => .ok fs1
       | .error .notExist => .error .notExist) :=
  short_id_uses_legacy "cache" [] "a" "payload" (by decide) (by decide)

end Yai
